import Mathlib

/-!
Verification of the de-identification and span-localization subsystem of the
Demotool-Qodia repository.  Python strings are modelled as `List Char`,
character offsets as `Nat` / `Int` (Python `str.find` returns `-1` on
failure), floats (entity scores, thresholds) as `ℚ`, and fallible code as
`Option`.  Loop-style recursions use an explicit fuel argument that is always
sufficient for the executions the source performs.
-/

set_option autoImplicit false

namespace Qodia

/-- Python `str.isspace` for the ASCII whitespace characters that occur in the
processed documents (`str.split` and `str.strip` split on these). -/
def pyIsSpace (c : Char) : Bool :=
  c = ' ' ∨ c = '\n' ∨ c = '\t' ∨ c = '\r' ∨ c = '\x0b' ∨ c = '\x0c'

/-- Python `s.strip()`: drop whitespace from both ends. -/
def pyStrip (s : List Char) : List Char :=
  ((s.dropWhile pyIsSpace).reverse.dropWhile pyIsSpace).reverse

/-- Python `s.strip(chars)`: drop the characters of `chars` from both ends. -/
def pyStripSet (chars : List Char) (s : List Char) : List Char :=
  ((s.dropWhile (· ∈ chars)).reverse.dropWhile (· ∈ chars)).reverse

/-- Python `s.lower()` restricted to ASCII plus the German umlauts that occur
in the gender/date lexicons. -/
def pyLowerChar (c : Char) : Char :=
  if c = 'Ä' then 'ä' else if c = 'Ö' then 'ö' else if c = 'Ü' then 'ü'
  else c.toLower

/-- Python `s.lower()` on a whole string. -/
def pyLower (s : List Char) : List Char :=
  s.map pyLowerChar

/-- Python `s.split()` (no argument), fuelled: split on runs of whitespace,
dropping empty pieces. -/
def splitWsAux : Nat → List Char → List (List Char)
  | 0, _ => []
  | _ + 1, [] => []
  | fuel + 1, c :: s =>
    if pyIsSpace c then splitWsAux fuel s
    else (c :: s.takeWhile (fun d => ¬ pyIsSpace d)) ::
      splitWsAux fuel (s.dropWhile (fun d => ¬ pyIsSpace d))

/-- Python `s.split()`. -/
def splitWs (s : List Char) : List (List Char) :=
  splitWsAux s.length s

/-- Python `s.split(sep)` for a single-character separator: keeps empty
pieces, `"".split(sep) = [""]`. -/
def splitOnChar (sep : Char) : List Char → List (List Char)
  | [] => [[]]
  | c :: t =>
    if c = sep then [] :: splitOnChar sep t
    else
      match splitOnChar sep t with
      | [] => [[c]]
      | h :: r => (c :: h) :: r

/-- First index `j ≥ k` at which `pat` occurs in `s` (with the occurrence
lying fully inside `s`), fuelled.  Models the search of Python `str.find` /
`str.index` and of the regex scan. -/
def findAtAux (pat s : List Char) : Nat → Nat → Option Nat
  | 0, _ => none
  | fuel + 1, k =>
    if k + pat.length ≤ s.length then
      if pat.isPrefixOf (s.drop k) then some k
      else findAtAux pat s fuel (k + 1)
    else none

/-- First occurrence of `pat` in `s` at an index `≥ k`. -/
def findAt (pat s : List Char) (k : Nat) : Option Nat :=
  findAtAux pat s (s.length + 1) k

/-- Python `s.find(pat, k)`: index of the first occurrence at or after `k`,
or `-1` when there is none. -/
def pyFind (s pat : List Char) (k : Nat) : Int :=
  match findAt pat s k with
  | some j => (j : Int)
  | none => -1

/-- Clamp a Python slice bound to `[0, len]` (negative indices count from the
end, as in Python). -/
def pyIdx (len : Nat) (i : Int) : Nat :=
  if i < 0 then (max 0 ((len : Int) + i)).toNat else min i.toNat len

/-- Python `s[:i]`. -/
def pySliceTo (s : List Char) (i : Int) : List Char :=
  s.take (pyIdx s.length i)

/-- Python `s[i:]`. -/
def pySliceFrom (s : List Char) (i : Int) : List Char :=
  s.drop (pyIdx s.length i)

/-- Python `s[a:b]`. -/
def pySlice (s : List Char) (a b : Int) : List Char :=
  (s.take (pyIdx s.length b)).drop (pyIdx s.length a)

/-- Substring of `s` from Nat offset `a` (inclusive) to `b` (exclusive); the
form regex match spans take. -/
def subSpan (s : List Char) (a b : Nat) : List Char :=
  (s.drop a).take (b - a)

/-- Python `sep.join(parts)`. -/
def pyJoin (sep : List Char) (parts : List (List Char)) : List Char :=
  List.intercalate sep parts

/-- Indel edit distance (insertions/deletions cost 1, a substitution costs 2),
the distance underlying `python-Levenshtein`'s `ratio` used by `fuzz.ratio`;
fuelled, with fuel `xs.length + ys.length + 1` always sufficient. -/
def levAux : Nat → List Char → List Char → Nat
  | 0, xs, ys => xs.length + ys.length
  | _ + 1, [], ys => ys.length
  | _ + 1, x :: xs, [] => (x :: xs).length
  | fuel + 1, x :: xs, y :: ys =>
    if x = y then levAux fuel xs ys
    else 1 + min (levAux fuel xs (y :: ys)) (levAux fuel (x :: xs) ys)

/-- Indel edit distance between two strings. -/
def levIndel (xs ys : List Char) : Nat :=
  levAux (xs.length + ys.length + 1) xs ys

/-- Python 3 `round(num/den)` for nonnegative integers: nearest integer, ties
to even. -/
def pyRound (num den : Nat) : Nat :=
  if 2 * (num % den) < den then num / den
  else if den < 2 * (num % den) then num / den + 1
  else if (num / den) % 2 = 0 then num / den else num / den + 1

/-- `fuzz.ratio(a, b)`: `round(100 * (lensum - dist) / lensum)` with the indel
distance, an integer in `[0, 100]`. -/
def fuzzScore (a b : List Char) : Nat :=
  let s := a.length + b.length
  if s = 0 then 100 else pyRound (100 * (s - levIndel a b)) s

/-! ## Quote localizer (`src/utils/utils.py`: `clean_zitat`, `find_zitat_in_text`) -/

/-- Python `s.split(sep)` for a multi-character separator (used with
`"[...]"`), fuelled; keeps empty pieces. -/
def splitOnSubAux (sep : List Char) : Nat → List Char → List (List Char)
  | 0, s => [s]
  | fuel + 1, s =>
    match findAt sep s 0 with
    | none => [s]
    | some j => s.take j :: splitOnSubAux sep fuel (s.drop (j + sep.length))

/-- Python `s.split(sep)` for a nonempty separator string. -/
def splitOnSub (sep s : List Char) : List (List Char) :=
  splitOnSubAux sep (s.length + 1) s

/-- `clean_zitat`: split a quote on newlines, split each line on the literal
elision marker `"[...]"`, strip each part and keep the nonempty ones. -/
def cleanZitat (zitat : List Char) : List (List Char) :=
  (splitOnChar '\n' zitat).flatMap fun line =>
    (splitOnSub ("[...]".toList) line).filterMap fun part =>
      let cleaned := pyStrip part
      if cleaned = [] then none else some cleaned

/-- Leftmost lazy match of the regex `escape(pre) .*? escape(suf)` (with
DOTALL) starting at or after position `p`: the smallest `a ≥ p` where `pre`
occurs with some occurrence of `suf` after it, ending at the earliest such
occurrence.  Returns the half-open span `(a, b)`.  Fuelled. -/
def firstLazyAux (pre suf s : List Char) : Nat → Nat → Option (Nat × Nat)
  | 0, _ => none
  | fuel + 1, p =>
    if p + pre.length ≤ s.length then
      if pre.isPrefixOf (s.drop p) then
        match findAt suf s (p + pre.length) with
        | some j => some (p, j + suf.length)
        | none => firstLazyAux pre suf s fuel (p + 1)
      else firstLazyAux pre suf s fuel (p + 1)
    else none

/-- Leftmost lazy match of `escape(pre) .*? escape(suf)` at or after `p`. -/
def firstLazy (pre suf s : List Char) (p : Nat) : Option (Nat × Nat) :=
  firstLazyAux pre suf s (s.length + 1) p

/-- All matches of `re.finditer(escape(pre) + '.*?' + escape(suf), s)` from
scan position `p` on: non-overlapping, scanning resumes at each match end.
Fuelled. -/
def lazyFromAux (pre suf s : List Char) : Nat → Nat → List (Nat × Nat)
  | 0, _ => []
  | fuel + 1, p =>
    match firstLazy pre suf s p with
    | none => []
    | some (a, b) => (a, b) :: (if p < b then lazyFromAux pre suf s fuel b else [])

/-- The matches `re.finditer` yields for the pattern
`escape(pre) + '.*?' + escape(suf)` over `s`. -/
def lazyMatches (pre suf s : List Char) : List (Nat × Nat) :=
  lazyFromAux pre suf s (s.length + 1) 0

/-- Similarity of the quote against the candidate substring of the cleaned
text, `fuzz.ratio(cleaned_zitat, cleaned_text[m.start:m.end])`. -/
def candScore (zitat text : List Char) (m : Nat × Nat) : Nat :=
  fuzzScore zitat (subSpan text m.1 m.2)

/-- The candidate-selection loop of `find_zitat_in_text`: walk the finditer
matches in order, keep the match with the running best similarity, replacing
it only on strict improvement (`ratio > best_ratio`, starting from 0). -/
def bestLoop (zitat text : List Char) :
    List (Nat × Nat) → Option (Nat × Nat) × Nat → Option (Nat × Nat) × Nat
  | [], acc => acc
  | m :: ms, acc =>
    bestLoop zitat text ms
      (if acc.2 < candScore zitat text m then (some m, candScore zitat text m) else acc)

/-- The candidate matches for one fragment: `re.finditer` over the pattern
built from the fragment's first ten (`zitat[:10]`) and last ten
(`zitat[-10:]`) characters. -/
def fragCandidates (zitat text : List Char) : List (Nat × Nat) :=
  lazyMatches (zitat.take 10) (zitat.drop (zitat.length - 10)) text

/-- The selection loop's final state for one fragment: best candidate and
best similarity, starting from `(None, 0)`. -/
def fragBest (zitat text : List Char) : Option (Nat × Nat) × Nat :=
  bestLoop zitat text (fragCandidates zitat text) (none, 0)

/-- Per-fragment localization: the accepted match of a cleaned quote fragment
against the cleaned text, `None` unless the best candidate's similarity
reaches 80 (`if best_match and best_ratio >= 80`). -/
def fragmentMatch (zitat text : List Char) : Option (Nat × Nat) :=
  match (fragBest zitat text).1 with
  | some m => if 80 ≤ (fragBest zitat text).2 then some m else none
  | none => none

/-- An element of an annotated sequence: plain text, or a located quote with
its label. -/
abbrev AnnItem := Sum (List Char) (List Char × String)

/-- Join an annotated sequence back into plain text (quote items contribute
their text component). -/
def annText (items : List AnnItem) : List Char :=
  (items.map fun it =>
    match it with
    | Sum.inl s => s
    | Sum.inr p => p.1).flatten

/-- `s.replace('\n', ' ')`. -/
def replaceNl (s : List Char) : List Char :=
  s.map fun c => if c = '\n' then ' ' else c

/-- The flattened list of cleaned fragments with their labels that
`find_zitat_in_text` iterates over. -/
def fragmentsOf (zitate : List (List Char × String)) : List (List Char × String) :=
  (zitate.map fun z => (cleanZitat z.1, z.2)).flatMap fun p => p.1.map fun f => (f, p.2)

/-- One accepted quote: its span in the text, its label, and the matched text
taken from the original (non-normalized) text. -/
abbrev LocatedZitat := (Nat × Nat) × String × List Char

/-- Stable ascending insertion by span start (Python `list.sort` with
`key=lambda x: x[0][0]`). -/
def insertByStart (x : LocatedZitat) : List LocatedZitat → List LocatedZitat
  | [] => [x]
  | y :: t => if x.1.1 ≤ y.1.1 then x :: y :: t else y :: insertByStart x t

/-- Stable sort of the accepted quotes by start position. -/
def sortByStart (l : List LocatedZitat) : List LocatedZitat :=
  l.foldr insertByStart []

/-- Rebuild the annotated items from the second accepted quote on: each quote
followed by the gap to the next quote, and after the last quote the trailing
text when nonempty. -/
def buildQuotes (orig : List Char) : List LocatedZitat → List AnnItem
  | [] => []
  | (idx, lab, txt) :: rest =>
    Sum.inr (txt, lab) ::
      match rest with
      | [] => if idx.2 < orig.length then [Sum.inl (orig.drop idx.2)] else []
      | (idx', _, _) :: _ => Sum.inl (subSpan orig idx.2 idx'.1) :: buildQuotes orig rest

/-- Rebuild the full annotated sequence: leading gap (always emitted when at
least one quote was accepted), then quotes with the gaps between them. -/
def buildAnnotated (orig : List Char) (l : List LocatedZitat) : List AnnItem :=
  match l with
  | [] => []
  | (idx, _, _) :: _ => Sum.inl (orig.take idx.1) :: buildQuotes orig l

/-- `find_zitat_in_text(zitate_to_find, annotated_text)` from
`src/utils/utils.py`: clean and flatten the quotes, locate each fragment in
the newline-normalized text via the lazy prefix/suffix regex and `fuzz.ratio`
with acceptance threshold 80, sort the accepted spans by start, and rebuild
an alternating sequence of gaps and `(match, label)` pairs over the original
text. -/
def findZitatInText (zitate : List (List Char × String)) (annotated : List AnnItem) :
    List AnnItem :=
  let originalText := annText annotated
  let cleanedText := replaceNl originalText
  let indices := (fragmentsOf zitate).filterMap fun fl =>
    (fragmentMatch (replaceNl fl.1) cleanedText).map fun b =>
      ((b.1, b.2), fl.2, subSpan originalText b.1 b.2)
  buildAnnotated originalText (sortByStart indices)

/-! ## Anonymization engine (`src/utils/helpers/anonymization/`) -/

/-- A detected entity dict: `original_word`, `entity_type`, `start`, `end`,
`score`.  Offsets are `Int` because Python `str.find` can return `-1`;
`endPos` models the dict key `end`. -/
structure PyEntity where
  original : List Char
  entityType : String
  start : Int
  endPos : Int
  score : ℚ
deriving DecidableEq

/-- The `ENTITIES` constant: entity types enabled for replacement. -/
def ENTITIES : List String :=
  ["LOCATION", "PERSON", "ORGANIZATION", "DATE_TIME", "GENDER_WORD",
   "ID_NUMBER", "FINANCIAL_ID"]

/-- The replacement text `f"<{entity['entity_type']}>"`. -/
def placeholderOf (e : PyEntity) : List Char :=
  '<' :: (e.entityType.toList ++ ['>'])

/-- One iteration of the replacement loop in `Anonymizer.anonymize`: splice
the placeholder over the entity's span when its type is enabled and its score
exceeds the threshold. -/
def applyEntity (t : List Char) (e : PyEntity) (threshold : ℚ) : List Char :=
  if e.entityType ∈ ENTITIES ∧ threshold < e.score then
    pySliceTo t e.start ++ placeholderOf e ++ pySliceFrom t e.endPos
  else t

/-- The full replacement loop over the (already sorted) entity list. -/
def spliceLoop (t : List Char) (es : List PyEntity) (threshold : ℚ) : List Char :=
  es.foldl (fun cur e => applyEntity cur e threshold) t

/-- The entities the splice loop actually applies: enabled entity type and
score strictly above the threshold. -/
def appliedOf (threshold : ℚ) (es : List PyEntity) : List PyEntity :=
  es.filter fun e => decide (e.entityType ∈ ENTITIES ∧ threshold < e.score)

/-- The splice loop restricted to the entities it applies (the skipped ones
leave the text unchanged). -/
def spliceApplied (t : List Char) : List PyEntity → List Char
  | [] => t
  | e :: rest =>
    spliceApplied (pySliceTo t e.start ++ placeholderOf e ++ pySliceFrom t e.endPos) rest

/-- Nat view of an applied entity: clamped start and end offsets and the
placeholder string. -/
def toNatTriple (e : PyEntity) : Nat × Nat × List Char :=
  (e.start.toNat, e.endPos.toNat, placeholderOf e)

/-- The splice loop over Nat spans. -/
def spliceNat (t : List Char) : List (Nat × Nat × List Char) → List Char
  | [] => t
  | x :: rest => spliceNat (t.take x.1 ++ x.2.2 ++ t.drop x.2.1) rest

/-- Stable descending insertion by `start` (Python
`list.sort(key=lambda x: x["start"], reverse=True)`). -/
def insertDescStart (x : PyEntity) : List PyEntity → List PyEntity
  | [] => [x]
  | y :: t => if y.start ≤ x.start then x :: y :: t else y :: insertDescStart x t

/-- Stable sort of the detected entities by start position, descending. -/
def pySortDescStart (es : List PyEntity) : List PyEntity :=
  es.foldr insertDescStart []

/-- The processor chain of `Anonymizer.anonymize`: each processor receives the
text and the accumulated list and returns the list extended with its own
candidates; modelled by each processor's contribution function. -/
def runProcessors (ps : List (List Char → List PyEntity)) (text : List Char) :
    List PyEntity :=
  ps.foldl (fun acc p => acc ++ p text) []

/-- The default threshold `0.7`. -/
def defaultThreshold : ℚ := mkRat 7 10

/-- `Anonymizer.anonymize(text)`: run all processors, sort the collected
entities by start descending, splice placeholders back-to-front, and return
the anonymized text together with the (sorted, unfiltered) entity list. -/
def anonymize (ps : List (List Char → List PyEntity)) (threshold : ℚ)
    (text : List Char) : List Char × List PyEntity :=
  let detected := pySortDescStart (runProcessors ps text)
  (spliceLoop text detected threshold, detected)

/-! ## Date processor (`processors/date_processor.py`, `_detect_split_dates`) -/

/-- `GERMAN_WEEKDAYS` from `constants.py`. -/
def GERMAN_WEEKDAYS : List (List Char) :=
  ["montag", "dienstag", "mittwoch", "donnerstag", "freitag", "samstag",
   "sonntag", "mo", "di", "mi", "do", "fr", "sa", "so",
   "mo.", "di.", "mi.", "do.", "fr.", "sa.", "so."].map String.toList

/-- `GERMAN_MONTHS` from `constants.py`. -/
def GERMAN_MONTHS : List (List Char) :=
  ["januar", "februar", "märz", "april", "mai", "juni", "juli", "august",
   "september", "oktober", "november", "dezember",
   "jan", "feb", "mär", "apr", "mai", "jun", "jul", "aug", "sep", "okt",
   "nov", "dez",
   "jan.", "feb.", "mär.", "apr.", "jun.", "jul.", "aug.", "sep.", "okt.",
   "nov.", "dez."].map String.toList

/-- The characters stripped by `_is_valid_date_part` (`",.!?;: "`). -/
def dateStripChars : List Char := ",.!?;: ".toList

/-- Digits of a numeral string to a number (Python `int`). -/
def digitsToNat (ds : List Char) : Nat :=
  ds.foldl (fun a c => 10 * a + (c.toNat - '0'.toNat)) 0

/-- `DateProcessor._is_valid_date_part`. -/
def isValidDatePart (w : List Char) : Bool :=
  let t := pyStripSet dateStripChars (pyLower w)
  if t ∈ GERMAN_WEEKDAYS ∨ t ∈ GERMAN_MONTHS then true
  else
    let t2 := (t.map fun c => if c = 'O' then '0' else c).map
      fun c => if c = 'o' then '0' else c
    let digits := t2.filter (· ≠ '.')
    if digits ≠ [] ∧ digits.all (·.isDigit) then
      let num := digitsToNat digits
      decide ((1 ≤ num ∧ num ≤ 31) ∨ (1 ≤ num ∧ num ≤ 12) ∨
        (20 ≤ num ∧ num ≤ 99) ∨ (1900 ≤ num ∧ num ≤ 2100))
    else false

/-- The inner `for j in range(1, min(4, len(words) - i))` loop of
`_detect_split_dates`: absorb a following word when it is a valid date part,
stop early only while fewer than two parts were collected. -/
def absorbDate : Nat → List (List Char) → List (List Char) → List (List Char)
  | 0, _, parts => parts
  | _ + 1, [], parts => parts
  | budget + 1, w :: rest, parts =>
    if isValidDatePart w then absorbDate budget rest (parts ++ [w])
    else if parts.length < 2 then parts
    else absorbDate budget rest parts

/-- Python `text.find(pat, st)` with an `Int` start position (clamped like a
slice bound). -/
def pyFindFrom (s pat : List Char) (st : Int) : Int :=
  pyFind s pat (pyIdx s.length st)

/-- The `while i < len(words)` loop of `_detect_split_dates`, fuelled; on a
detection the index advances past the absorbed parts
(`i += len(date_parts) - 1` and the loop's `i += 1`). -/
def splitDatesLoop (text : List Char) (words : List (List Char)) :
    Nat → Nat → List PyEntity
  | 0, _ => []
  | fuel + 1, i =>
    if i < words.length then
      let w := words.getD i []
      if isValidDatePart w then
        let prev := words.getD (i - 1) []
        let searchFrom : Int :=
          if i = 0 then 0 else pyFind text prev 0 + (prev.length : Int)
        let start := pyFindFrom text w searchFrom
        let parts := absorbDate (min 4 (words.length - i) - 1) (words.drop (i + 1)) [w]
        if 2 ≤ parts.length then
          let combined := pyJoin [' '] parts
          let hasNumber := parts.any fun p =>
            let q := (p.filter (· ≠ '.')).map fun c => if c = 'O' then '0' else c
            q ≠ [] ∧ q.all (·.isDigit)
          let hasMW := parts.any fun p =>
            let n := pyStripSet dateStripChars (pyLower p)
            n ∈ GERMAN_MONTHS ∨ n ∈ GERMAN_WEEKDAYS
          if hasNumber ∧ (hasMW ∨ 3 ≤ parts.length) then
            { original := combined, entityType := "DATE_TIME", start := start,
              endPos := start + (combined.length : Int), score := 1 } ::
              splitDatesLoop text words fuel (i + parts.length)
          else splitDatesLoop text words fuel (i + 1)
        else splitDatesLoop text words fuel (i + 1)
      else splitDatesLoop text words fuel (i + 1)
    else []

/-- `DateProcessor._detect_split_dates(text)`. -/
def detectSplitDates (text : List Char) : List PyEntity :=
  splitDatesLoop text (splitWs text) ((splitWs text).length + 1) 0

/-! ## Gender processor (`processors/gender_processor.py`) -/

/-- `GENDER_WORDS` from `constants.py`. -/
def GENDER_WORDS : List (List Char) :=
  ["frau", "frauen", "frauens", "mann", "männer", "mannes", "männern",
   "herr", "herren", "herrn", "dame", "damen", "dames", "fräulein",
   "fräuleins", "mädchen", "mädchens", "junge", "jungen", "jungens",
   "jugendlicher", "jugendliche", "jugendlichen", "person", "personen",
   "persons"].map String.toList

/-- The characters stripped by `GenderProcessor` (`",.!?;:"`, no space). -/
def genderStripChars : List Char := ",.!?;:".toList

/-- The index-tracking scan of `GenderProcessor.process`: for each
whitespace token, `start_idx = text.index(word, index)` and
`index = start_idx + len(word)`.  `none` models the `ValueError` that
`str.index` raises when the token is not found (never reached on real
inputs). -/
def genderScanAux (text : List Char) : List (List Char) → Nat →
    Option (List (List Char × Nat))
  | [], _ => some []
  | w :: ws, idx =>
    match findAt w text idx with
    | none => none
    | some k => (genderScanAux text ws (k + w.length)).map fun r => (w, k) :: r

/-- The entity candidates `GenderProcessor.process` appends for a text: the
whitespace tokens whose lowercased, punctuation-stripped form is a gender
word. -/
def genderEntities (text : List Char) : Option (List PyEntity) :=
  (genderScanAux text (splitWs text) 0).map fun toks =>
    toks.filterMap fun wk =>
      let norm := pyStripSet genderStripChars (pyLower wk.1)
      if norm ∈ GENDER_WORDS then
        some { original := wk.1, entityType := "GENDER_WORD",
               start := (wk.2 : Int), endPos := ((wk.2 + wk.1.length : Nat) : Int),
               score := 1 }
      else none

/-! ## OCR word indexing and multi-page OCR (`src/utils/helpers/ocr.py`) -/

/-- One row of `pytesseract.image_to_data` output (already converted to
`int`s, as the source does). -/
structure OcrRow where
  text : List Char
  conf : Int
  left : Int
  top : Int
  width : Int
  height : Int
  pageNum : Int
  blockNum : Int
  parNum : Int
  lineNum : Int
  wordNum : Int
deriving DecidableEq

/-- A `word_map` record built by `perform_ocr_with_coordinates`. -/
structure WordRecord where
  text : List Char
  bbox : Int × Int × Int × Int
  page : Int
  confidence : ℚ
  blockNum : Int
  parNum : Int
  lineNum : Int
  wordNum : Int
deriving DecidableEq

/-- The record built for a kept row; `confidence = conf / 100.0` is modelled
by the exact rational `mkRat conf 100`. -/
def toWordRecord (r : OcrRow) : WordRecord :=
  { text := r.text, bbox := (r.left, r.top, r.left + r.width, r.top + r.height),
    page := r.pageNum, confidence := mkRat r.conf 100, blockNum := r.blockNum,
    parNum := r.parNum, lineNum := r.lineNum, wordNum := r.wordNum }

/-- The row filter of `perform_ocr_with_coordinates`: skip rows whose text is
empty after stripping, and rows with `conf < 0`. -/
def keepOcrRow (r : OcrRow) : Bool :=
  decide (pyStrip r.text ≠ [] ∧ 0 ≤ r.conf)

/-- `perform_ocr_with_coordinates(image)`: build the word map from the
surviving rows and join their texts with single spaces. -/
def performOcrWithCoordinates (rows : List OcrRow) : List Char × List WordRecord :=
  let wordMap := (rows.filter keepOcrRow).map toWordRecord
  (pyJoin [' '] (wordMap.map (·.text)), wordMap)

/-- `_process_complete_pdf_bytes`: page OCR results are appended in the order
the futures complete (`as_completed`), keeping those with nonempty stripped
text, then joined with newlines.  `completion` is the list of page indices in
completion order. -/
def processCompletePdfBytes (pageTexts : List (List Char)) (completion : List Nat) :
    List Char :=
  pyJoin ['\n']
    ((completion.map fun i => pageTexts.getD i []).filter fun t =>
      decide (pyStrip t ≠ []))

/-- The result array of `_process_pdf`: initialized to `[""] * total_pages`,
then `results[page_index] = future.result()` as each future completes. -/
def fillResults (pageResults : List (List Char)) (completion : List Nat) :
    List (List Char) :=
  completion.foldl (fun res i => res.set i (pageResults.getD i []))
    (List.replicate pageResults.length [])

/-- `_process_pdf`: fill the result slots by page index in completion order,
then join the non-empty results with newlines. -/
def processPdf (pageResults : List (List Char)) (completion : List Nat) : List Char :=
  pyJoin ['\n'] ((fillResults pageResults completion).filter fun t => decide (t ≠ []))

/-! ## Background pipeline and queueing (`src/utils/helpers/background.py`,
`document_store.py`) -/

/-- `DocumentStatus`. -/
inductive DocStatus where
  | uploaded
  | queued
  | processing
  | completed
  | failed
deriving DecidableEq

/-- The status-bearing part of a document row; `update_status` overwrites
`status`, `error_message`, `result` and `api_headers` together. -/
structure DocRecord where
  status : DocStatus
  errorMessage : Option String
  result : Option String
  apiHeaders : Option String
deriving DecidableEq

/-- `DocumentStore.update_status`. -/
def updateStatus (_ : DocRecord) (st : DocStatus) (err res hdr : Option String) :
    DocRecord :=
  { status := st, errorMessage := err, result := res, apiHeaders := hdr }

/-- The outcomes of the fallible stages of one `process_document` run and the
branch taken (`DEPLOYMENT_ENV == "local"` or not); each stage either raises
(`Except.error` with the exception's message) or returns its payload. -/
structure PipelineStages where
  envLocal : Bool
  ocrLocal : Except String String
  anonymizeStage : Except String String
  redactStage : Except String String
  ocrApi : Except String String
  analyzeStage : Except String (Option String)
  headers : Option String

/-- The `try`-body of `process_document`: the stage sequence of the taken
branch, the `if not result` check, and the response-header check. -/
def runBody (st : PipelineStages) : Except String (String × String) :=
  let chain : Except String (Option String) :=
    if st.envLocal then do
      let _ ← st.ocrLocal
      let _ ← st.anonymizeStage
      let _ ← st.redactStage
      st.analyzeStage
    else do
      let _ ← st.ocrApi
      let _ ← st.ocrLocal
      st.analyzeStage
  match chain with
  | Except.error m => Except.error m
  | Except.ok none => Except.error "API analysis failed"
  | Except.ok (some res) =>
    match st.headers with
    | none => Except.error "API response headers not available"
    | some h => Except.ok (res, h)

/-- `process_document`: set the document to `PROCESSING`, run the body, and
set `COMPLETED` with the result, or `FAILED` with the exception's message
when anything raised. -/
def processDocument (st : PipelineStages) (r : DocRecord) : DocRecord :=
  let r1 := updateStatus r DocStatus.processing none none none
  match runBody st with
  | Except.ok (res, h) =>
    updateStatus r1 DocStatus.completed none (some res) (some h)
  | Except.error m => updateStatus r1 DocStatus.failed (some m) none none

/-- The queue-relevant state for one document id: the stored row's status (if
a row exists), the stored file, and the number of submitted processing
tasks. -/
structure QueueState where
  record : Option DocStatus
  file : Option Nat
  tasks : Nat
deriving DecidableEq

/-- The arguments `queue_document` validates and uses. -/
structure QueueArgs where
  category : String
  apiKey : String
  apiUrl : String
  fileData : Nat

/-- `DocumentStore.add_document`: skip when a row exists in
`UPLOADED`/`QUEUED`/`PROCESSING`; otherwise delete any existing row and
insert a fresh `UPLOADED` one. -/
def addDocument (s : QueueState) : QueueState :=
  match s.record with
  | some st =>
    if st = DocStatus.uploaded ∨ st = DocStatus.queued ∨ st = DocStatus.processing
    then s
    else { s with record := some DocStatus.uploaded }
  | none => { s with record := some DocStatus.uploaded }

/-- The tail of `queue_document` after the early-return check: validate the
required parameters (`update_status FAILED` touches only an existing row),
store the file, `add_document`, and submit the processing task. -/
def queueProceed (a : QueueArgs) (s : QueueState) : QueueState :=
  if a.category = "" ∨ a.apiKey = "" ∨ a.apiUrl = "" then
    { s with record := s.record.map fun _ => DocStatus.failed }
  else
    let s1 := { s with file := some a.fileData }
    let s2 := addDocument s1
    { s2 with tasks := s2.tasks + 1 }

/-- `queue_document`: return unchanged when the stored status is `QUEUED` or
`PROCESSING`; otherwise store the file, add the row and submit the task. -/
def queueDocument (a : QueueArgs) (s : QueueState) : QueueState :=
  match s.record with
  | some st =>
    if st = DocStatus.queued ∨ st = DocStatus.processing then s
    else queueProceed a s
  | none => queueProceed a s

/-! ## Lemmas: the regex candidate scan -/

theorem findAtAux_some {pat s : List Char} :
    ∀ {fuel k j : Nat}, findAtAux pat s fuel k = some j →
    k ≤ j ∧ j + pat.length ≤ s.length ∧ pat.isPrefixOf (s.drop j) = true := by
  intro fuel
  induction fuel with
  | zero => intro k j h; simp [findAtAux] at h
  | succ f ih =>
    intro k j h
    simp only [findAtAux] at h
    split_ifs at h with h1 h2
    · cases h
      exact ⟨Nat.le_refl _, h1, h2⟩
    · have := ih h
      exact ⟨by omega, this.2.1, this.2.2⟩

theorem findAt_some {pat s : List Char} {k j : Nat} (h : findAt pat s k = some j) :
    k ≤ j ∧ j + pat.length ≤ s.length ∧ pat.isPrefixOf (s.drop j) = true :=
  findAtAux_some h

theorem firstLazyAux_some {pre suf s : List Char} :
    ∀ {fuel p : Nat} {a b : Nat}, firstLazyAux pre suf s fuel p = some (a, b) →
    p ≤ a ∧ a + pre.length ≤ s.length ∧ pre.isPrefixOf (s.drop a) = true ∧
      ∃ j, findAt suf s (a + pre.length) = some j ∧ b = j + suf.length := by
  intro fuel
  induction fuel with
  | zero => intro p a b h; simp [firstLazyAux] at h
  | succ f ih =>
    intro p a b h
    simp only [firstLazyAux] at h
    split_ifs at h with h1 h2
    · cases hfa : findAt suf s (p + pre.length) with
      | none => rw [hfa] at h; have := ih h; exact ⟨by omega, this.2.1, this.2.2⟩
      | some j =>
        rw [hfa] at h
        cases h
        exact ⟨Nat.le_refl _, h1, h2, j, hfa, rfl⟩
    · have := ih h
      exact ⟨by omega, this.2.1, this.2.2⟩

theorem firstLazy_some {pre suf s : List Char} {p a b : Nat}
    (h : firstLazy pre suf s p = some (a, b)) :
    p ≤ a ∧ a + pre.length + suf.length ≤ b ∧ b ≤ s.length := by
  obtain ⟨hpa, hlen, _, j, hj, hb⟩ := firstLazyAux_some h
  obtain ⟨hkj, hjlen, _⟩ := findAt_some hj
  exact ⟨hpa, by omega, by omega⟩

theorem lazyFromAux_mem {pre suf s : List Char} :
    ∀ {fuel p : Nat} {m : Nat × Nat}, m ∈ lazyFromAux pre suf s fuel p →
    p ≤ m.1 ∧ m.1 + pre.length + suf.length ≤ m.2 ∧ m.2 ≤ s.length := by
  intro fuel
  induction fuel with
  | zero => intro p m h; simp [lazyFromAux] at h
  | succ f ih =>
    intro p m h
    simp only [lazyFromAux] at h
    cases hfl : firstLazy pre suf s p with
    | none => rw [hfl] at h; simp at h
    | some ab =>
      rw [hfl] at h
      obtain ⟨a, b⟩ := ab
      have hspec := firstLazy_some hfl
      rcases List.mem_cons.mp h with rfl | htail
      · exact ⟨hspec.1, hspec.2.1, hspec.2.2⟩
      · split_ifs at htail with hlt
        · have := ih htail
          exact ⟨by omega, this.2.1, this.2.2⟩
        · simp at htail

theorem lazyFromAux_pairwise {pre suf s : List Char} (hsuf : suf ≠ []) :
    ∀ (fuel p : Nat),
    List.Pairwise (fun x y : Nat × Nat => x.1 < y.1) (lazyFromAux pre suf s fuel p) := by
  have hsuflen : 1 ≤ suf.length := by
    cases suf with
    | nil => exact absurd rfl hsuf
    | cons c t => simp
  intro fuel
  induction fuel with
  | zero => intro p; simp [lazyFromAux]
  | succ f ih =>
    intro p
    simp only [lazyFromAux]
    cases hfl : firstLazy pre suf s p with
    | none => simp
    | some ab =>
      obtain ⟨a, b⟩ := ab
      have hspec := firstLazy_some hfl
      refine List.pairwise_cons.mpr ⟨?_, ?_⟩
      · intro y hy
        split_ifs at hy with hlt
        · have := lazyFromAux_mem hy
          omega
        · simp at hy
      · split_ifs with hlt
        · exact ih b
        · simp

/-! ## Lemmas: the similarity score -/

theorem levAux_ge : ∀ (fuel : Nat) (xs ys : List Char),
    ys.length ≤ xs.length + levAux fuel xs ys := by
  intro fuel
  induction fuel with
  | zero => intro xs ys; simp [levAux]; omega
  | succ f ih =>
    intro xs ys
    cases xs with
    | nil => cases ys <;> simp [levAux]
    | cons x xs =>
      cases ys with
      | nil => simp [levAux]
      | cons y ys =>
        simp only [levAux, List.length_cons]
        split
        · have := ih xs ys
          omega
        · have h1 := ih xs (y :: ys)
          have h2 := ih (x :: xs) ys
          simp only [List.length_cons] at h1 h2
          omega

theorem levIndel_ge (xs ys : List Char) : ys.length ≤ xs.length + levIndel xs ys :=
  levAux_ge _ xs ys

theorem pyRound_mul_le {num den : Nat} (hden : 0 < den) :
    pyRound num den * (2 * den) ≤ 2 * num + den := by
  have hdm : den * (num / den) + num % den = num := Nat.div_add_mod num den
  have hmod : num % den < den := Nat.mod_lt _ hden
  obtain ⟨A, hA⟩ : ∃ A, den * (num / den) = A := ⟨_, rfl⟩
  obtain ⟨q, hq⟩ : ∃ q, num / den = q := ⟨_, rfl⟩
  obtain ⟨r, hr⟩ : ∃ r, num % den = r := ⟨_, rfl⟩
  rw [hq, hr] at hdm
  rw [hq] at hA
  unfold pyRound
  rw [hq, hr]
  have hqe : q * (2 * den) = 2 * A := by rw [← hA]; ring
  have hq1e : (q + 1) * (2 * den) = 2 * A + 2 * den := by rw [← hA]; ring
  split_ifs <;> omega

theorem pyRound_lt_80 {num den : Nat} (hden : 0 < den) (h : 2 * num < 159 * den) :
    pyRound num den < 80 := by
  have h1 := @pyRound_mul_le num den hden
  have h2 : pyRound num den * (2 * den) < 80 * (2 * den) := by omega
  exact Nat.lt_of_mul_lt_mul_right h2

theorem fuzzScore_lt_80 {z c : List Char} (h1 : 1 ≤ z.length) (h13 : z.length ≤ 13)
    (hc : 2 * min 10 z.length ≤ c.length) : fuzzScore z c < 80 := by
  have hs : ¬ (z.length + c.length = 0) := by omega
  show (if z.length + c.length = 0 then 100
    else pyRound (100 * (z.length + c.length - levIndel z c)) (z.length + c.length)) < 80
  rw [if_neg hs]
  apply pyRound_lt_80 (by omega)
  have hd := levIndel_ge z c
  omega

/-! ## Lemmas: the best-candidate loop -/

theorem bestLoop_acc_le (z t : List Char) :
    ∀ (ms : List (Nat × Nat)) (acc : Option (Nat × Nat) × Nat),
    acc.2 ≤ (bestLoop z t ms acc).2 := by
  intro ms
  induction ms with
  | nil => intro acc; simp [bestLoop]
  | cons m rest ih =>
    intro acc
    simp only [bestLoop]
    split_ifs with h
    · exact le_trans (le_of_lt h) (by simpa using ih (some m, candScore z t m))
    · exact ih acc

theorem bestLoop_le_of_mem (z t : List Char) :
    ∀ (ms : List (Nat × Nat)) (acc : Option (Nat × Nat) × Nat) (m : Nat × Nat),
    m ∈ ms → candScore z t m ≤ (bestLoop z t ms acc).2 := by
  intro ms
  induction ms with
  | nil => intro acc m h; simp at h
  | cons m' rest ih =>
    intro acc m h
    simp only [bestLoop]
    rcases List.mem_cons.mp h with rfl | hmem
    · split_ifs with hc
      · exact le_trans (le_of_eq rfl)
          (by simpa using bestLoop_acc_le z t rest (some m, candScore z t m))
      · exact le_trans (Nat.le_of_not_lt hc) (bestLoop_acc_le z t rest acc)
    · split_ifs with hc
      · exact ih _ m hmem
      · exact ih _ m hmem

theorem bestLoop_stable (z t : List Char) :
    ∀ (ms : List (Nat × Nat)) (acc : Option (Nat × Nat) × Nat),
    (bestLoop z t ms acc).2 = acc.2 → bestLoop z t ms acc = acc := by
  intro ms
  induction ms with
  | nil => intro acc _; rfl
  | cons m rest ih =>
    intro acc h
    simp only [bestLoop] at h ⊢
    split_ifs at h ⊢ with hc
    · exfalso
      have := bestLoop_acc_le z t rest (some m, candScore z t m)
      simp only at this
      omega
    · exact ih acc h

theorem bestLoop_some_persist (z t : List Char) :
    ∀ (ms : List (Nat × Nat)) (acc : Option (Nat × Nat) × Nat) (b₀ : Nat × Nat),
    acc.1 = some b₀ → ((bestLoop z t ms acc).1).isSome = true := by
  intro ms
  induction ms with
  | nil => intro acc b₀ h; simp [bestLoop, h]
  | cons m rest ih =>
    intro acc b₀ h
    simp only [bestLoop]
    split_ifs with hc
    · exact ih (some m, candScore z t m) m rfl
    · exact ih acc b₀ h

theorem bestLoop_none (z t : List Char) :
    ∀ (ms : List (Nat × Nat)) (acc : Option (Nat × Nat) × Nat),
    (bestLoop z t ms acc).1 = none → bestLoop z t ms acc = acc := by
  intro ms
  induction ms with
  | nil => intro acc _; rfl
  | cons m rest ih =>
    intro acc h
    simp only [bestLoop] at h ⊢
    split_ifs at h ⊢ with hc
    · exfalso
      have := bestLoop_some_persist z t rest (some m, candScore z t m) m rfl
      rw [h] at this
      simp at this
    · exact ih acc h

theorem bestLoop_some_spec (z t : List Char) :
    ∀ (ms : List (Nat × Nat)) (acc : Option (Nat × Nat) × Nat),
    (∀ b₀, acc.1 = some b₀ → candScore z t b₀ = acc.2) →
    ∀ b, (bestLoop z t ms acc).1 = some b →
      candScore z t b = (bestLoop z t ms acc).2 ∧ (b ∈ ms ∨ acc.1 = some b) := by
  intro ms
  induction ms with
  | nil =>
    intro acc hinv b hb
    exact ⟨hinv b hb, Or.inr hb⟩
  | cons m rest ih =>
    intro acc hinv b hb
    simp only [bestLoop] at hb ⊢
    split_ifs at hb ⊢ with hc
    · have := ih (some m, candScore z t m)
        (by intro b₀ h₀; cases h₀; rfl) b hb
      rcases this.2 with hmem | hacc
      · exact ⟨this.1, Or.inl (List.mem_cons.mpr (Or.inr hmem))⟩
      · cases hacc
        exact ⟨this.1, Or.inl (List.mem_cons.mpr (Or.inl rfl))⟩
    · have := ih acc hinv b hb
      rcases this.2 with hmem | hacc
      · exact ⟨this.1, Or.inl (List.mem_cons.mpr (Or.inr hmem))⟩
      · exact ⟨this.1, Or.inr hacc⟩

theorem bestLoop_first (z t : List Char) :
    ∀ (ms : List (Nat × Nat)) (acc : Option (Nat × Nat) × Nat),
    List.Pairwise (fun x y : Nat × Nat => x.1 < y.1) ms →
    (∀ b₀ m, acc.1 = some b₀ → m ∈ ms → b₀.1 < m.1) →
    (∀ b₀, acc.1 = some b₀ → candScore z t b₀ = acc.2) →
    ∀ b, (bestLoop z t ms acc).1 = some b →
    ∀ m ∈ ms, candScore z t m = (bestLoop z t ms acc).2 → b.1 ≤ m.1 := by
  intro ms
  induction ms with
  | nil => intro acc _ _ _ b _ m hm; simp at hm
  | cons m' rest ih =>
    intro acc hpw hdom hinv b hb m hm hsc
    obtain ⟨hlt, hpw'⟩ := List.pairwise_cons.mp hpw
    simp only [bestLoop] at hb hsc ⊢
    split_ifs at hb hsc ⊢ with hc
    · rcases List.mem_cons.mp hm with rfl | hmem
      · have hacc2 : (bestLoop z t rest (some m, candScore z t m)).2 =
            (some m, candScore z t m).2 := by
          simpa using hsc.symm
        have hst := bestLoop_stable z t rest (some m, candScore z t m) hacc2
        rw [hst] at hb
        cases hb
        exact Nat.le_refl _
      · exact ih (some m', candScore z t m') hpw'
          (by intro b₀ m₀ h₀ hm₀; cases h₀; exact hlt m₀ hm₀)
          (by intro b₀ h₀; cases h₀; rfl) b hb m hmem hsc
    · rcases List.mem_cons.mp hm with rfl | hmem
      · have h1 := bestLoop_acc_le z t rest acc
        have h2 : candScore z t m ≤ acc.2 := Nat.le_of_not_lt hc
        have hacc2 : (bestLoop z t rest acc).2 = acc.2 := by omega
        have hst := bestLoop_stable z t rest acc hacc2
        rw [hst] at hb
        exact le_of_lt (hdom b m hb (List.mem_cons.mpr (Or.inl rfl)))
      · exact ih acc hpw'
          (by intro b₀ m₀ h₀ hm₀; exact hdom b₀ m₀ h₀ (List.mem_cons.mpr (Or.inr hm₀)))
          hinv b hb m hmem hsc

/-! ## Claims C10, C7, C1: quote localization -/

/-- C10: a quote fragment whose cleaned text has at most 13 characters is
never localized: every regex candidate substring contains the 10-character
prefix and the 10-character suffix of the fragment (hence at least 20
characters, or at least twice the fragment's length for fragments of at most
10 characters), so `fuzz.ratio` can never reach the acceptance threshold 80
and `find_zitat_in_text` accepts no match for the fragment, whatever the
document text is. -/
theorem short_fragment_never_matches (z t : List Char)
    (h1 : 1 ≤ z.length) (h13 : z.length ≤ 13) : fragmentMatch z t = none := by
  have key : ∀ m ∈ fragCandidates z t, candScore z t m < 80 := by
    intro m hm
    have hm' : m ∈ lazyFromAux (z.take 10) (z.drop (z.length - 10)) t
        (t.length + 1) 0 := hm
    obtain ⟨_, hge, hle⟩ := lazyFromAux_mem hm'
    have hpre : (z.take 10).length = min 10 z.length := List.length_take 10 z
    have hsuf : (z.drop (z.length - 10)).length = z.length - (z.length - 10) :=
      List.length_drop _ z
    rw [hpre, hsuf] at hge
    have hlen : (subSpan t m.1 m.2).length = min (m.2 - m.1) (t.length - m.1) := by
      simp [subSpan]
    apply fuzzScore_lt_80 h1 h13
    rw [hlen]
    omega
  cases hb : (fragBest z t).1 with
  | none => simp [fragmentMatch, hb]
  | some b =>
    have hspec := bestLoop_some_spec z t (fragCandidates z t) (none, 0)
      (by intro b₀ h₀; simp at h₀) b hb
    rcases hspec.2 with hmem | habs
    · have hspec1 : candScore z t b = (fragBest z t).2 := hspec.1
      have hlt : (fragBest z t).2 < 80 := by
        have := key b hmem
        omega
      simp [fragmentMatch, hb, Nat.not_le.mpr hlt]
    · simp at habs

/-- C10 witness: the concrete 13-character fragment is rejected against a
text that contains it literally. -/
theorem short_fragment_never_matches_witness :
    fragmentMatch ("abcdefghijklm".toList) ("abcdefghijklm".toList) = none :=
  short_fragment_never_matches _ _ (by decide) (by decide)

/-- C7: the candidate matches are scanned left to right (their start indices
are strictly increasing), the loop keeps the candidate with the best
similarity, replacing it only on strict improvement, so among candidates of
equal best similarity the first (lowest start index) is kept; a match is
accepted exactly when some candidate's similarity reaches the threshold
80. -/
theorem quote_selection_first_max (z t : List Char) :
    (z ≠ [] → List.Pairwise (fun x y : Nat × Nat => x.1 < y.1) (fragCandidates z t)) ∧
    (∀ m ∈ fragCandidates z t, candScore z t m ≤ (fragBest z t).2) ∧
    (∀ b, (fragBest z t).1 = some b →
      candScore z t b = (fragBest z t).2 ∧ b ∈ fragCandidates z t ∧
      (z ≠ [] → ∀ m ∈ fragCandidates z t,
        candScore z t m = (fragBest z t).2 → b.1 ≤ m.1)) ∧
    ((∃ b, fragmentMatch z t = some b) ↔
      ∃ m ∈ fragCandidates z t, 80 ≤ candScore z t m) := by
  have hsuf : z ≠ [] → z.drop (z.length - 10) ≠ [] := by
    intro hz hnil
    have h0 : 0 < z.length := List.length_pos.mpr hz
    have hlen := congrArg List.length hnil
    rw [List.length_drop] at hlen
    simp only [List.length_nil] at hlen
    omega
  refine ⟨?_, ?_, ?_, ?_⟩
  · intro hz
    exact lazyFromAux_pairwise (hsuf hz) _ _
  · intro m hm
    exact bestLoop_le_of_mem z t _ _ m hm
  · intro b hb
    have hspec := bestLoop_some_spec z t (fragCandidates z t) (none, 0)
      (by intro b₀ h₀; simp at h₀) b hb
    rcases hspec.2 with hmem | habs
    · refine ⟨hspec.1, hmem, ?_⟩
      intro hz m hm hsc
      exact bestLoop_first z t (fragCandidates z t) (none, 0)
        (lazyFromAux_pairwise (hsuf hz) _ _)
        (by intro b₀ m₀ h₀; simp at h₀)
        (by intro b₀ h₀; simp at h₀) b hb m hm hsc
    · simp at habs
  · constructor
    · rintro ⟨b, hb⟩
      unfold fragmentMatch at hb
      cases hbest : (fragBest z t).1 with
      | none => rw [hbest] at hb; simp at hb
      | some b' =>
        rw [hbest] at hb
        split_ifs at hb with h80
        · cases hb
          have hspec := bestLoop_some_spec z t (fragCandidates z t) (none, 0)
            (by intro b₀ h₀; simp at h₀) b hbest
          rcases hspec.2 with hmem | habs
          · exact ⟨b, hmem, by rw [hspec.1]; exact h80⟩
          · simp at habs
    · rintro ⟨m, hm, h80⟩
      have hge : 80 ≤ (fragBest z t).2 :=
        le_trans h80 (bestLoop_le_of_mem z t _ _ m hm)
      cases hbest : (fragBest z t).1 with
      | none =>
        exfalso
        have := bestLoop_none z t (fragCandidates z t) (none, 0) hbest
        have h2 : (fragBest z t).2 = 0 := by
          have : fragBest z t = (none, 0) := this
          rw [this]
        omega
      | some b =>
        refine ⟨b, ?_⟩
        unfold fragmentMatch
        rw [hbest]
        show (if 80 ≤ (fragBest z t).2 then some b else none) = some b
        rw [if_pos hge]

/-- C7 witness: on a concrete fragment and text the candidate list is
strictly sorted by start and the single candidate's similarity is bounded by
the loop's best value. -/
theorem quote_selection_first_max_witness :
    List.Pairwise (fun x y : Nat × Nat => x.1 < y.1)
      (fragCandidates ("ab".toList) ("abab".toList)) ∧
    candScore ("ab".toList) ("abab".toList) (0, 4) ≤
      (fragBest ("ab".toList) ("abab".toList)).2 :=
  ⟨(quote_selection_first_max _ _).1 (by decide),
   (quote_selection_first_max _ _).2.1 (0, 4) (by decide)⟩

/-- C1 (amended): when the quote list is empty, or no cleaned fragment is
accepted against the text, `find_zitat_in_text` returns the empty sequence —
not the original annotated sequence. -/
theorem quote_no_match_returns_empty (zitate : List (List Char × String))
    (annotated : List AnnItem) :
    (zitate = [] → findZitatInText zitate annotated = []) ∧
    ((∀ fl ∈ fragmentsOf zitate,
        fragmentMatch (replaceNl fl.1) (replaceNl (annText annotated)) = none) →
      findZitatInText zitate annotated = []) := by
  have main : (∀ fl ∈ fragmentsOf zitate,
      fragmentMatch (replaceNl fl.1) (replaceNl (annText annotated)) = none) →
      findZitatInText zitate annotated = [] := by
    intro h
    simp only [findZitatInText]
    rw [List.filterMap_eq_nil_iff.mpr ?_]
    · rfl
    · intro fl hfl
      rw [h fl hfl]
      rfl
  refine ⟨?_, main⟩
  intro hz
  apply main
  rw [hz]
  intro fl hfl
  simp [fragmentsOf] at hfl

/-- C1 counterexample: locating an empty quote list over the annotated
sequence `["abc"]` returns `[]`, not the original sequence, refuting
`locate([], full_text) == [full_text]`. -/
theorem quote_no_match_counterexample :
    findZitatInText [] [Sum.inl ("abc".toList)] ≠ [Sum.inl ("abc".toList)] := by
  decide

/-- C1 witness: a concrete non-empty quote list with no accepted fragment
also yields the empty sequence. -/
theorem quote_no_match_returns_empty_witness :
    findZitatInText [("xyz".toList, "Z")] [Sum.inl ("ab".toList)] = [] :=
  (quote_no_match_returns_empty _ _).2 (by decide)

/-! ## Lemmas: the back-to-front splice -/

theorem spliceLoop_eq_applied :
    ∀ (es : List PyEntity) (t : List Char) (threshold : ℚ),
    spliceLoop t es threshold = spliceApplied t (appliedOf threshold es) := by
  intro es
  induction es with
  | nil => intro t threshold; rfl
  | cons e rest ih =>
    intro t threshold
    show spliceLoop (applyEntity t e threshold) rest threshold = _
    by_cases h : e.entityType ∈ ENTITIES ∧ threshold < e.score
    · have happ : appliedOf threshold (e :: rest) = e :: appliedOf threshold rest := by
        simp [appliedOf, List.filter_cons, h]
      rw [happ]
      show _ = spliceApplied
        (pySliceTo t e.start ++ placeholderOf e ++ pySliceFrom t e.endPos)
        (appliedOf threshold rest)
      rw [applyEntity, if_pos h]
      exact ih _ threshold
    · have happ : appliedOf threshold (e :: rest) = appliedOf threshold rest := by
        simp [appliedOf, List.filter_cons, h]
      rw [happ, applyEntity, if_neg h]
      exact ih t threshold

theorem pySliceTo_ofNonneg (t : List Char) (i : Int) (h : 0 ≤ i) :
    pySliceTo t i = t.take i.toNat := by
  unfold pySliceTo pyIdx
  rw [if_neg (not_lt.mpr h)]
  rcases le_total i.toNat t.length with hle | hge
  · rw [min_eq_left hle]
  · rw [min_eq_right hge, List.take_length, List.take_of_length_le hge]

theorem pySliceFrom_ofNonneg (t : List Char) (i : Int) (h : 0 ≤ i) :
    pySliceFrom t i = t.drop i.toNat := by
  unfold pySliceFrom pyIdx
  rw [if_neg (not_lt.mpr h)]
  rcases le_total i.toNat t.length with hle | hge
  · rw [min_eq_left hle]
  · rw [min_eq_right hge, List.drop_length, List.drop_eq_nil_of_le hge]

theorem spliceApplied_eq_nat :
    ∀ (l : List PyEntity) (t : List Char),
    (∀ e ∈ l, 0 ≤ e.start ∧ 0 ≤ e.endPos) →
    spliceApplied t l = spliceNat t (l.map toNatTriple) := by
  intro l
  induction l with
  | nil => intro t _; rfl
  | cons e rest ih =>
    intro t h
    have he := h e (List.mem_cons.mpr (Or.inl rfl))
    show spliceApplied (pySliceTo t e.start ++ placeholderOf e ++ pySliceFrom t e.endPos)
      rest = _
    rw [pySliceTo_ofNonneg t e.start he.1, pySliceFrom_ofNonneg t e.endPos he.2]
    exact ih _ (fun e' he' => h e' (List.mem_cons.mpr (Or.inr he')))

theorem spliceNat_shape :
    ∀ (l : List (Nat × Nat × List Char)) (t : List Char) (m : Nat),
    (∀ x ∈ l, x.1 < x.2.1) → (∀ x ∈ l, x.2.1 ≤ m) →
    List.Pairwise (fun a b => b.2.1 ≤ a.1) l → m ≤ t.length →
    ∃ U : List Char, spliceNat t l = U ++ t.drop m ∧
      U.length + (l.map fun x => x.2.1 - x.1).sum =
        m + (l.map fun x => x.2.2.length).sum := by
  intro l
  induction l with
  | nil =>
    intro t m _ _ _ hm
    refine ⟨t.take m, ?_, ?_⟩
    · simp [spliceNat]
    · simp [List.length_take]
      omega
  | cons x rest ih =>
    intro t m hlt hle hpw hm
    obtain ⟨hx, hrest⟩ := List.pairwise_cons.mp hpw
    have hxe : x.2.1 ≤ m := hle x (List.mem_cons.mpr (Or.inl rfl))
    have hxs : x.1 < x.2.1 := hlt x (List.mem_cons.mpr (Or.inl rfl))
    have hlen_take : (t.take x.1).length = x.1 := by
      simp [List.length_take]
      omega
    have ht'len : x.1 ≤ (t.take x.1 ++ x.2.2 ++ t.drop x.2.1).length := by
      simp [List.length_append, hlen_take]
    obtain ⟨U', hU', hlen'⟩ := ih (t.take x.1 ++ x.2.2 ++ t.drop x.2.1) x.1
      (fun y hy => hlt y (List.mem_cons.mpr (Or.inr hy)))
      (fun y hy => hx y hy) hrest ht'len
    have happ_drop : ∀ (l₁ l₂ : List Char), l₁.length = x.1 →
        (l₁ ++ l₂).drop x.1 = l₂ := by
      intro l₁ l₂ h
      rw [← h, List.drop_left]
    have hdrop : (t.take x.1 ++ x.2.2 ++ t.drop x.2.1).drop x.1 =
        x.2.2 ++ t.drop x.2.1 := by
      rw [List.append_assoc]
      exact happ_drop _ _ hlen_take
    have hdd : (t.drop x.2.1).drop (m - x.2.1) = t.drop m := by
      rw [List.drop_drop, show x.2.1 + (m - x.2.1) = m from by omega]
    have hsplit : t.drop x.2.1 = (t.drop x.2.1).take (m - x.2.1) ++ t.drop m := by
      rw [← hdd]
      exact (List.take_append_drop _ _).symm
    have htake_len : ((t.drop x.2.1).take (m - x.2.1)).length = m - x.2.1 := by
      rw [List.length_take, List.length_drop]
      omega
    refine ⟨U' ++ x.2.2 ++ (t.drop x.2.1).take (m - x.2.1), ?_, ?_⟩
    · calc
        spliceNat t (x :: rest)
            = spliceNat (t.take x.1 ++ x.2.2 ++ t.drop x.2.1) rest := rfl
        _ = U' ++ (t.take x.1 ++ x.2.2 ++ t.drop x.2.1).drop x.1 := hU'
        _ = U' ++ (x.2.2 ++ t.drop x.2.1) := by rw [hdrop]
        _ = U' ++ (x.2.2 ++ ((t.drop x.2.1).take (m - x.2.1) ++ t.drop m)) := by
            rw [← hsplit]
        _ = U' ++ x.2.2 ++ (t.drop x.2.1).take (m - x.2.1) ++ t.drop m := by
            simp [List.append_assoc]
    · simp only [List.length_append, htake_len, List.map_cons, List.sum_cons]
      omega

theorem sum_span_cast :
    ∀ (l : List PyEntity), (∀ e ∈ l, 0 ≤ e.start ∧ e.start ≤ e.endPos) →
    (l.map fun e => e.endPos - e.start).sum =
      ((((l.map toNatTriple).map fun x => x.2.1 - x.1).sum : Nat) : Int) := by
  intro l
  induction l with
  | nil => intro _; simp
  | cons e rest ih =>
    intro h
    have he := h e (List.mem_cons.mpr (Or.inl rfl))
    simp only [List.map_cons, List.sum_cons, toNatTriple]
    rw [ih (fun e' he' => h e' (List.mem_cons.mpr (Or.inr he')))]
    omega

theorem sum_ph_cast :
    ∀ (l : List PyEntity),
    (l.map fun e => ((placeholderOf e).length : Int)).sum =
      ((((l.map toNatTriple).map fun x => x.2.2.length).sum : Nat) : Int) := by
  intro l
  induction l with
  | nil => simp
  | cons e rest ih =>
    simp only [List.map_cons, List.sum_cons, toNatTriple]
    rw [ih]
    omega

/-! ## Claim C3: back-to-front replacement -/

/-- C3 (amended): the splice loop is total (Python slicing cannot index out
of range), and provided the applied entities — after the descending-start
sort and the type/score filter — are within the text's bounds and pairwise
non-overlapping, the output length satisfies
`len(out) + Σ(end-start) = len(T) + Σ len(placeholder)` over the applied
entities.  With overlapping applied entities the formula fails (see the
counterexample). -/
theorem splice_length_invariant (text : List Char) (threshold : ℚ)
    (es : List PyEntity)
    (hb : ∀ e ∈ appliedOf threshold (pySortDescStart es),
        0 ≤ e.start ∧ e.start < e.endPos ∧ e.endPos ≤ (text.length : Int))
    (hdisj : List.Pairwise (fun a b => b.endPos ≤ a.start)
        (appliedOf threshold (pySortDescStart es))) :
    ((spliceLoop text (pySortDescStart es) threshold).length : Int) +
      ((appliedOf threshold (pySortDescStart es)).map fun e => e.endPos - e.start).sum =
    (text.length : Int) +
      ((appliedOf threshold (pySortDescStart es)).map fun e =>
        ((placeholderOf e).length : Int)).sum := by
  set l := appliedOf threshold (pySortDescStart es) with hl
  have hnn : ∀ e ∈ l, 0 ≤ e.start ∧ 0 ≤ e.endPos := by
    intro e he
    have := hb e he
    exact ⟨this.1, by omega⟩
  have h1 : ∀ x ∈ l.map toNatTriple, x.1 < x.2.1 := by
    intro x hx
    rcases List.mem_map.mp hx with ⟨e, he, rfl⟩
    have := hb e he
    simp only [toNatTriple]
    omega
  have h2 : ∀ x ∈ l.map toNatTriple, x.2.1 ≤ text.length := by
    intro x hx
    rcases List.mem_map.mp hx with ⟨e, he, rfl⟩
    have := hb e he
    simp only [toNatTriple]
    omega
  have h3 : List.Pairwise (fun a b : Nat × Nat × List Char => b.2.1 ≤ a.1)
      (l.map toNatTriple) := by
    rw [List.pairwise_map]
    refine hdisj.imp_of_mem ?_
    intro a b ha hb'
    intro hr
    have hna := hb a ha
    have hnb := hb b hb'
    simp only [toNatTriple]
    omega
  rw [spliceLoop_eq_applied, ← hl, spliceApplied_eq_nat l text hnn]
  obtain ⟨U, hU, hlen⟩ :=
    spliceNat_shape (l.map toNatTriple) text text.length h1 h2 h3 (le_refl _)
  rw [hU, List.drop_length, List.append_nil]
  rw [sum_span_cast l (fun e he => ⟨(hb e he).1, le_of_lt (hb e he).2.1⟩), sum_ph_cast l]
  omega

/-- C3 counterexample: with two overlapping applied `PERSON` entities over a
30-character text the claimed length formula is violated (the second splice's
`end` exceeds the already-shrunk working text). -/
theorem splice_length_counterexample :
    ¬ (((spliceLoop (List.replicate 30 'x')
          (pySortDescStart
            [⟨"b".toList, "PERSON", 0, 20, 1⟩, ⟨"a".toList, "PERSON", 2, 30, 1⟩])
          defaultThreshold).length : Int) +
        ((appliedOf defaultThreshold (pySortDescStart
            [⟨"b".toList, "PERSON", 0, 20, 1⟩, ⟨"a".toList, "PERSON", 2, 30, 1⟩])).map
          fun e => e.endPos - e.start).sum =
      (((List.replicate 30 'x').length : Nat) : Int) +
        ((appliedOf defaultThreshold (pySortDescStart
            [⟨"b".toList, "PERSON", 0, 20, 1⟩, ⟨"a".toList, "PERSON", 2, 30, 1⟩])).map
          fun e => ((placeholderOf e).length : Int)).sum) := by
  decide

/-- C3 witness: two disjoint in-bounds entities over `"abcdef"` satisfy the
length equation. -/
theorem splice_length_invariant_witness :
    ((spliceLoop ("abcdef".toList)
        (pySortDescStart
          [⟨"a".toList, "PERSON", 0, 2, 1⟩, ⟨"b".toList, "PERSON", 3, 5, 1⟩])
        defaultThreshold).length : Int) +
      ((appliedOf defaultThreshold (pySortDescStart
          [⟨"a".toList, "PERSON", 0, 2, 1⟩, ⟨"b".toList, "PERSON", 3, 5, 1⟩])).map
        fun e => e.endPos - e.start).sum =
    (("abcdef".toList.length : Nat) : Int) +
      ((appliedOf defaultThreshold (pySortDescStart
          [⟨"a".toList, "PERSON", 0, 2, 1⟩, ⟨"b".toList, "PERSON", 3, 5, 1⟩])).map
        fun e => ((placeholderOf e).length : Int)).sum :=
  splice_length_invariant _ _ _ (by decide) (by decide)

/-! ## Claim C4: the returned entity list is unfiltered -/

theorem insertDescStart_perm (x : PyEntity) :
    ∀ l : List PyEntity, (insertDescStart x l).Perm (x :: l) := by
  intro l
  induction l with
  | nil => exact List.Perm.refl _
  | cons y t ih =>
    simp only [insertDescStart]
    split_ifs with h
    · exact List.Perm.refl _
    · exact (List.Perm.cons y ih).trans (List.Perm.swap x y t)

theorem pySortDescStart_perm : ∀ l : List PyEntity, (pySortDescStart l).Perm l := by
  intro l
  induction l with
  | nil => exact List.Perm.refl _
  | cons e t ih =>
    show (insertDescStart e (pySortDescStart t)).Perm (e :: t)
    exact (insertDescStart_perm e _).trans (List.Perm.cons e ih)

theorem runProcessors_flatten :
    ∀ (ps : List (List Char → List PyEntity)) (acc : List PyEntity) (text : List Char),
    ps.foldl (fun a p => a ++ p text) acc = acc ++ (ps.map fun p => p text).flatten := by
  intro ps
  induction ps with
  | nil => intro acc text; simp
  | cons p rest ih =>
    intro acc text
    simp only [List.foldl_cons, List.map_cons, List.flatten_cons]
    rw [ih]
    simp [List.append_assoc]

/-- C4: the `detected_entities` list `Anonymizer.anonymize` returns is a
permutation (the descending-start sort) of the concatenation of all
processors' candidates; no threshold or entity-type filter is applied before
returning, so a candidate is in the returned list exactly when some processor
produced it — including candidates whose score is at or below the
threshold. -/
theorem detected_entities_unfiltered (ps : List (List Char → List PyEntity))
    (threshold : ℚ) (text : List Char) :
    ((anonymize ps threshold text).2).Perm ((ps.map fun p => p text).flatten) ∧
    ∀ e : PyEntity,
      e ∈ (anonymize ps threshold text).2 ↔ e ∈ (ps.map fun p => p text).flatten := by
  have hperm : ((anonymize ps threshold text).2).Perm (runProcessors ps text) :=
    pySortDescStart_perm _
  have hrp : runProcessors ps text = (ps.map fun p => p text).flatten := by
    unfold runProcessors
    rw [runProcessors_flatten]
    simp
  rw [hrp] at hperm
  exact ⟨hperm, fun e => hperm.mem_iff⟩

/-- C4 witness: a candidate with score `0.5` (below the `0.7` threshold) is
still present in the returned entity list. -/
theorem detected_entities_unfiltered_witness :
    (⟨"x".toList, "PERSON", 0, 1, mkRat 1 2⟩ : PyEntity) ∈
      (anonymize [fun _ => [⟨"x".toList, "PERSON", 0, 1, mkRat 1 2⟩]]
        defaultThreshold ("xy".toList)).2 :=
  ((detected_entities_unfiltered _ _ _).2 _).mpr (by decide)

/-! ## Claim C2: offset validity of recognizer candidates -/

theorem splitWsAux_ne_nil :
    ∀ (fuel : Nat) (s : List Char) (w : List Char), w ∈ splitWsAux fuel s → w ≠ [] := by
  intro fuel
  induction fuel with
  | zero => intro s w hw; simp [splitWsAux] at hw
  | succ f ih =>
    intro s w hw
    cases s with
    | nil => simp [splitWsAux] at hw
    | cons c s' =>
      simp only [splitWsAux] at hw
      split_ifs at hw with h
      · exact ih s' w hw
      · rcases List.mem_cons.mp hw with rfl | h2
        · simp
        · exact ih _ w h2

theorem splitWs_ne_nil {s w : List Char} (hw : w ∈ splitWs s) : w ≠ [] :=
  splitWsAux_ne_nil _ s w hw

theorem genderScanAux_mem {text : List Char} :
    ∀ (ws : List (List Char)) (idx : Nat) (toks : List (List Char × Nat)),
    genderScanAux text ws idx = some toks → ∀ wk ∈ toks,
    wk.1.isPrefixOf (text.drop wk.2) = true ∧ wk.2 + wk.1.length ≤ text.length ∧
      wk.1 ∈ ws := by
  intro ws
  induction ws with
  | nil =>
    intro idx toks h wk hwk
    simp only [genderScanAux] at h
    cases h
    simp at hwk
  | cons w ws ih =>
    intro idx toks h wk hwk
    simp only [genderScanAux] at h
    cases hf : findAt w text idx with
    | none => rw [hf] at h; simp at h
    | some k =>
      rw [hf] at h
      have h' : Option.map (fun r => (w, k) :: r) (genderScanAux text ws (k + w.length))
          = some toks := h
      cases hrec : genderScanAux text ws (k + w.length) with
      | none => rw [hrec] at h'; simp at h'
      | some r =>
        rw [hrec] at h'
        injection h' with h''
        subst h''
        rcases List.mem_cons.mp hwk with rfl | hm
        · obtain ⟨_, hlen, hpre⟩ := findAt_some hf
          exact ⟨hpre, hlen, List.mem_cons.mpr (Or.inl rfl)⟩
        · have := ih _ r hrec wk hm
          exact ⟨this.1, this.2.1, List.mem_cons.mpr (Or.inr this.2.2)⟩

theorem pySlice_of_prefixAt {text w : List Char} {k : Nat}
    (hpre : w.isPrefixOf (text.drop k) = true) (hlen : k + w.length ≤ text.length) :
    pySlice text (k : Int) ((k + w.length : Nat) : Int) = w := by
  obtain ⟨tail, htail⟩ := List.isPrefixOf_iff_prefix.mp hpre
  unfold pySlice pyIdx
  rw [if_neg (by omega), if_neg (by omega)]
  have h1 : ((k : Int)).toNat = k := Int.toNat_natCast k
  have h2 : (((k + w.length : Nat) : Int)).toNat = k + w.length := Int.toNat_natCast _
  rw [h1, h2, min_eq_left hlen, min_eq_left (by omega)]
  rw [List.drop_take]
  have : k + w.length - k = w.length := by omega
  rw [this, ← htail]
  exact List.take_left w tail

/-- C2 (amended): offset validity holds for the gender recognizer — every
candidate it returns satisfies `0 ≤ start < end ≤ len(T)` and
`T[start:end] == original_word` — but not for every recognizer: the
split-date heuristic can return a candidate whose `original_word` differs
from `T[start:end]` (see the counterexample). -/
theorem gender_offsets_valid (text : List Char) (es : List PyEntity)
    (h : genderEntities text = some es) :
    ∀ e ∈ es, 0 ≤ e.start ∧ e.start < e.endPos ∧ e.endPos ≤ (text.length : Int) ∧
      pySlice text e.start e.endPos = e.original := by
  unfold genderEntities at h
  cases hscan : genderScanAux text (splitWs text) 0 with
  | none => rw [hscan] at h; simp at h
  | some toks =>
    rw [hscan] at h
    injection h with h
    subst h
    intro e he
    rcases List.mem_filterMap.mp he with ⟨wk, hwk, hcond⟩
    simp only at hcond
    split_ifs at hcond with hg
    · cases hcond
      obtain ⟨hpre, hlen, hmem⟩ := genderScanAux_mem _ _ _ hscan wk hwk
      have hne : wk.1 ≠ [] := splitWs_ne_nil hmem
      have hwlen : 1 ≤ wk.1.length := by
        cases hq : wk.1 with
        | nil => exact absurd hq hne
        | cons c cs => simp
      refine ⟨by positivity, ?_, ?_, ?_⟩
      · show (wk.2 : Int) < ((wk.2 + wk.1.length : Nat) : Int)
        exact_mod_cast by omega
      · show ((wk.2 + wk.1.length : Nat) : Int) ≤ (text.length : Int)
        exact_mod_cast hlen
      · exact pySlice_of_prefixAt hpre hlen

/-- C2 counterexample: on the text `"1 2 x 3"` the split-date heuristic
returns a candidate whose stored `original_word` (`"1 2 3"`) differs from
`T[start:end]` (`"1 2 x"`), so the offset-validity invariant fails for the
date recognizer. -/
theorem entity_offset_counterexample :
    ((detectSplitDates ("1 2 x 3".toList)).all fun e =>
      pySlice ("1 2 x 3".toList) e.start e.endPos == e.original) = false := by
  decide

/-- C2 witness: the gender candidate detected in `"Herr Max"` satisfies the
invariant. -/
theorem gender_offsets_valid_witness :
    0 ≤ (⟨"Herr".toList, "GENDER_WORD", 0, 4, 1⟩ : PyEntity).start ∧
    (⟨"Herr".toList, "GENDER_WORD", 0, 4, 1⟩ : PyEntity).start <
      (⟨"Herr".toList, "GENDER_WORD", 0, 4, 1⟩ : PyEntity).endPos ∧
    (⟨"Herr".toList, "GENDER_WORD", 0, 4, 1⟩ : PyEntity).endPos ≤
      (("Herr Max".toList).length : Int) ∧
    pySlice ("Herr Max".toList) (⟨"Herr".toList, "GENDER_WORD", 0, 4, 1⟩ : PyEntity).start
        (⟨"Herr".toList, "GENDER_WORD", 0, 4, 1⟩ : PyEntity).endPos =
      (⟨"Herr".toList, "GENDER_WORD", 0, 4, 1⟩ : PyEntity).original :=
  gender_offsets_valid ("Herr Max".toList)
    [⟨"Herr".toList, "GENDER_WORD", 0, 4, 1⟩] (by decide)
    ⟨"Herr".toList, "GENDER_WORD", 0, 4, 1⟩ (by decide)

/-! ## Claim C5: page order of multi-page OCR -/

theorem fillResults_getElem? (pr : List (List Char)) :
    ∀ (completion : List Nat) (res : List (List Char)) (i : Nat),
    (completion.foldl (fun r j => r.set j (pr.getD j [])) res)[i]? =
      if i ∈ completion ∧ i < res.length then some (pr.getD i []) else res[i]? := by
  intro completion
  induction completion with
  | nil => intro res i; simp
  | cons c cs ih =>
    intro res i
    simp only [List.foldl_cons]
    rw [ih, List.length_set]
    by_cases hic : i = c
    · subst hic
      by_cases hmem : i ∈ cs <;> by_cases hlen : i < res.length <;>
        simp [hmem, hlen, List.getElem?_set, List.getElem?_eq_none_iff]
      · omega
      · omega
    · have hset : (res.set c (pr.getD c []))[i]? = res[i]? := by
        rw [List.getElem?_set, if_neg (by omega)]
      rw [hset]
      by_cases hmem : i ∈ cs <;> by_cases hlen : i < res.length <;>
        simp [hmem, hlen, List.mem_cons, hic]

theorem fillResults_of_perm (pr : List (List Char)) (completion : List Nat)
    (h : completion.Perm (List.range pr.length)) : fillResults pr completion = pr := by
  apply List.ext_getElem?
  intro i
  unfold fillResults
  rw [fillResults_getElem? pr completion (List.replicate pr.length []) i,
    List.length_replicate]
  by_cases hi : i < pr.length
  · rw [if_pos ⟨h.mem_iff.mpr (List.mem_range.mpr hi), hi⟩,
      List.getD_eq_getElem pr [] hi, List.getElem?_eq_getElem hi]
  · have hm : i ∉ completion := fun hc => hi (List.mem_range.mp (h.mem_iff.mp hc))
    rw [if_neg (by tauto), List.getElem?_eq_none (by simp; omega),
      List.getElem?_eq_none (by omega)]

/-- C5 (amended): the selection path `_process_pdf` assigns each OCR result
to its page index, so its output equals the sequential page-order output for
every completion order of the per-page futures; the no-selection path
`_process_complete_pdf_bytes`, however, appends page texts in completion
order, so its output is completion-order dependent (see the
counterexample). -/
theorem processPdf_page_order (pageResults : List (List Char)) (completion : List Nat)
    (h : completion.Perm (List.range pageResults.length)) :
    processPdf pageResults completion =
      processPdf pageResults (List.range pageResults.length) := by
  unfold processPdf
  rw [fillResults_of_perm _ _ h, fillResults_of_perm _ _ (List.Perm.refl _)]

/-- C5 counterexample: with two pages completing in the order `[1, 0]`,
`_process_complete_pdf_bytes` returns `"B\nA"`, not the page-order
concatenation `"A\nB"`. -/
theorem page_order_counterexample :
    processCompletePdfBytes ["A".toList, "B".toList] [1, 0] ≠
      pyJoin ['\n'] ["A".toList, "B".toList] := by
  decide

/-- C5 witness: three pages completing in the order `[2, 0, 1]` still yield
the page-order output on the `_process_pdf` path. -/
theorem processPdf_page_order_witness :
    processPdf ["A".toList, "B".toList, "C".toList] [2, 0, 1] =
      processPdf ["A".toList, "B".toList, "C".toList] (List.range 3) :=
  processPdf_page_order _ _ (by decide)

/-! ## Claim C6: pipeline failure handling -/

/-- C6: whatever the stage outcomes, a `process_document` run ends with the
document in `COMPLETED` or `FAILED` — never left in `PROCESSING` — and when
any stage raises, the status is `FAILED` with that exception's message
recorded. -/
theorem pipeline_failure_sets_failed (st : PipelineStages) (r : DocRecord) :
    ((processDocument st r).status = DocStatus.completed ∨
      (processDocument st r).status = DocStatus.failed) ∧
    (processDocument st r).status ≠ DocStatus.processing ∧
    (∀ m, runBody st = Except.error m →
      (processDocument st r).status = DocStatus.failed ∧
      (processDocument st r).errorMessage = some m) := by
  unfold processDocument
  cases hrb : runBody st with
  | ok v =>
    obtain ⟨res, hdr⟩ := v
    refine ⟨Or.inl rfl, by simp [updateStatus], ?_⟩
    intro m hm
    cases hm
  | error m =>
    refine ⟨Or.inr rfl, by simp [updateStatus], ?_⟩
    intro m' hm
    injection hm with hm
    subst hm
    exact ⟨rfl, rfl⟩

/-- C6 witness: a run whose OCR stage raises `"boom"` ends `FAILED` with
`"boom"` recorded. -/
theorem pipeline_failure_sets_failed_witness :
    (processDocument
        ⟨true, Except.error "boom", Except.ok "", Except.ok "", Except.ok "",
          Except.ok none, none⟩
        ⟨DocStatus.uploaded, none, none, none⟩).status = DocStatus.failed ∧
    (processDocument
        ⟨true, Except.error "boom", Except.ok "", Except.ok "", Except.ok "",
          Except.ok none, none⟩
        ⟨DocStatus.uploaded, none, none, none⟩).errorMessage = some "boom" :=
  (pipeline_failure_sets_failed _ _).2.2 "boom" rfl

/-! ## Claim C8: the OCR word index -/

/-- C8 (amended): every surviving `word_map` record has text that is nonempty
after stripping and confidence in `[0,1]` (given tesseract's `conf ≤ 100`);
the returned page text is exactly the surviving records' texts joined with
single spaces; and a row is discarded exactly when its text strips to empty
or its confidence is negative — zero-confidence tokens are kept, only
`conf < 0` rows are dropped (see the counterexample). -/
theorem ocr_word_index_valid (rows : List OcrRow)
    (hconf : ∀ r ∈ rows, r.conf ≤ 100) :
    (∀ w ∈ (performOcrWithCoordinates rows).2,
        pyStrip w.text ≠ [] ∧ 0 ≤ w.confidence ∧ w.confidence ≤ 1) ∧
    (performOcrWithCoordinates rows).1 =
      pyJoin [' '] (((performOcrWithCoordinates rows).2).map (·.text)) ∧
    (∀ r ∈ rows, (pyStrip r.text = [] ∨ r.conf < 0) →
        toWordRecord r ∉ (performOcrWithCoordinates rows).2) := by
  refine ⟨?_, rfl, ?_⟩
  · intro w hw
    rcases List.mem_map.mp hw with ⟨r, hr, rfl⟩
    have hk : keepOcrRow r = true := List.of_mem_filter hr
    unfold keepOcrRow at hk
    have hkr : pyStrip r.text ≠ [] ∧ 0 ≤ r.conf := of_decide_eq_true hk
    have h100 := hconf r (List.mem_of_mem_filter hr)
    refine ⟨hkr.1, ?_, ?_⟩
    · show 0 ≤ mkRat r.conf 100
      rw [Rat.mkRat_eq_div]
      exact div_nonneg (by exact_mod_cast hkr.2) (by norm_num)
    · show mkRat r.conf 100 ≤ 1
      rw [Rat.mkRat_eq_div, div_le_one (by norm_num)]
      exact_mod_cast h100
  · intro r _ hbad hmem
    rcases List.mem_map.mp hmem with ⟨r', hr', heq⟩
    have hk : keepOcrRow r' = true := List.of_mem_filter hr'
    unfold keepOcrRow at hk
    have hk' : pyStrip r'.text ≠ [] ∧ 0 ≤ r'.conf := of_decide_eq_true hk
    have htext : r'.text = r.text := congrArg WordRecord.text heq
    have hc : mkRat r'.conf 100 = mkRat r.conf 100 :=
      congrArg WordRecord.confidence heq
    rcases hbad with hempty | hneg
    · rw [← htext] at hempty
      exact hk'.1 hempty
    · rw [Rat.mkRat_eq_div, Rat.mkRat_eq_div,
        div_eq_div_iff (by norm_num) (by norm_num)] at hc
      have : r'.conf = r.conf := by
        have := mul_right_cancel₀ (by norm_num : (100 : ℚ) ≠ 0) hc
        exact_mod_cast this
      omega

/-- C8 counterexample: a token with confidence exactly `0` survives into the
word map — zero-confidence tokens are not discarded, only negative
confidences are. -/
theorem ocr_zero_confidence_kept :
    (performOcrWithCoordinates
      [⟨['a'], 0, 1, 2, 3, 4, 1, 0, 0, 0, 0⟩]).2 ≠ [] := by
  decide

/-- C8 witness: the join property at a concrete row list. -/
theorem ocr_word_index_valid_witness :
    (performOcrWithCoordinates [⟨['a'], 50, 0, 0, 0, 0, 1, 0, 0, 0, 0⟩]).1 =
      pyJoin [' ']
        (((performOcrWithCoordinates [⟨['a'], 50, 0, 0, 0, 0, 1, 0, 0, 0, 0⟩]).2).map
          (·.text)) :=
  (ocr_word_index_valid _ (by decide)).2.1

/-! ## Claim C9: re-queue behavior -/

/-- C9 (amended): re-queueing a document in `QUEUED` or `PROCESSING` is a
complete no-op; but for `UPLOADED` it is not — the stored row keeps its
`UPLOADED` status (`add_document` skips), yet the file is re-stored and a new
processing task is submitted; for the terminal states `COMPLETED`/`FAILED`
the row is replaced by a fresh `UPLOADED` one and a task is submitted. -/
theorem queue_requeue_behavior (a : QueueArgs) (s : QueueState) (st : DocStatus)
    (hrec : s.record = some st)
    (hvalid : ¬ (a.category = "" ∨ a.apiKey = "" ∨ a.apiUrl = "")) :
    (st = DocStatus.queued ∨ st = DocStatus.processing → queueDocument a s = s) ∧
    (st = DocStatus.uploaded →
      (queueDocument a s).record = some DocStatus.uploaded ∧
      (queueDocument a s).file = some a.fileData ∧
      (queueDocument a s).tasks = s.tasks + 1) ∧
    (st = DocStatus.completed ∨ st = DocStatus.failed →
      (queueDocument a s).record = some DocStatus.uploaded ∧
      (queueDocument a s).file = some a.fileData ∧
      (queueDocument a s).tasks = s.tasks + 1) := by
  unfold queueDocument queueProceed addDocument
  rw [hrec]
  cases st <;> simp [hvalid, hrec]

/-- C9 counterexample: re-queueing a document whose stored status is
`UPLOADED` is not a no-op: the file is stored and a processing task is
submitted. -/
theorem queue_requeue_counterexample :
    queueDocument ⟨"c", "k", "u", 5⟩ ⟨some DocStatus.uploaded, none, 0⟩ ≠
      ⟨some DocStatus.uploaded, none, 0⟩ := by
  decide

/-- C9 witness: a `PROCESSING` document is left untouched. -/
theorem queue_requeue_behavior_witness :
    queueDocument ⟨"c", "k", "u", 5⟩ ⟨some DocStatus.processing, none, 0⟩ =
      ⟨some DocStatus.processing, none, 0⟩ :=
  (queue_requeue_behavior _ _ DocStatus.processing rfl (by decide)).1 (Or.inr rfl)

end Qodia

